import Mathlib

/-!
Verification of the node2vec random-walk utilities (`node2vec/utils.py`).

The Python module is embedded shallowly:

* Python `float` weights and probabilities become exact rationals `ℚ`
  ("up to floating tolerance" in the documentation becomes exact arithmetic);
* Python lists become Lean `List`s; the two worklists of Vose's algorithm,
  which the source uses as stacks (`append`/`pop` act on the tail), are kept
  head-first, i.e. a Lean list holds the Python stack in reversed order;
* runtime errors (`ValueError`, `ZeroDivisionError`, a failed list index)
  are made explicit with `Except`/`Option` results;
* the process-wide random source of Python's `random` module is threaded as
  explicit generator state, so that seeding and drawing are pure functions.
-/

namespace Node2Vec

/-- Error taxonomy for the failures the source can raise, named after the
documentation's taxonomy: `emptyWeights` is the `ZeroDivisionError` from
`sum(node_weights) / n` at `n == 0`; `zeroDivision` is the
`ZeroDivisionError` from `x / avg_weight` when the weights sum to zero;
`invalidNeighbors` and `invalidBiasParameter` are the two `ValueError`s of
`generate_edge_alias_tables`. -/
inductive Err where
  | emptyWeights
  | zeroDivision
  | invalidNeighbors
  | invalidBiasParameter
  deriving DecidableEq, Repr

/-- Python `int(x)` on a float: truncation toward zero. -/
def pyInt (x : ℚ) : ℤ :=
  if 0 ≤ x then ⌊x⌋ else ⌈x⌉

/-- Python list indexing `l[i]`: non-negative indices from the front,
negative indices wrap from the back, anything else raises `IndexError`
(modelled as `none`). -/
def pyGet {α : Type} (l : List α) (i : ℤ) : Option α :=
  if 0 ≤ i then l.get? i.toNat
  else if 0 ≤ i + l.length then l.get? (i + l.length).toNat
  else none

/-- `Neighbors._data`: the tuple of destination node ids and edge weights
stored by the class; the class performs no validation of the pair. -/
structure Neighbors where
  data : List ℤ × List ℚ
  deriving DecidableEq, Repr

/-- The `dst_id` property. -/
def Neighbors.dst_id (v : Neighbors) : List ℤ := v.data.1

/-- The `dst_wt` property. -/
def Neighbors.dst_wt (v : Neighbors) : List ℚ := v.data.2

/-- `AliasProb._data`: the alias table and pseudo-probability table stored
by the class; again no validation happens at construction. -/
structure AliasProb where
  data : List ℤ × List ℚ
  deriving DecidableEq, Repr

/-- The `alias` property. -/
def AliasProb.alias (v : AliasProb) : List ℤ := v.data.1

/-- The `probs` property. -/
def AliasProb.probs (v : AliasProb) : List ℚ := v.data.2

/-- `RandomPath._data`: the list of node ids stored by the class. -/
structure RandomPath where
  data : List ℤ
  deriving DecidableEq, Repr

/-- The `path` property. -/
def RandomPath.path (v : RandomPath) : List ℤ := v.data

/-- Modelled from the spec: the process-wide random source (Python's
`random` module) used by `draw_alias`.  The behaviour the specification
relies on is only that `random.seed` deterministically initialises the
generator state and `random.random()` returns a value in `[0,1)` while
advancing the state; a linear congruential generator over an explicit
`ℕ` state stands in for the Mersenne Twister. -/
def rngModulus : ℕ := 2 ^ 32

/-- Modelled from the spec: `random.seed(s)` — deterministic state
initialisation from an integer seed. -/
def seedRng (s : ℤ) : ℕ := s.natAbs % rngModulus

/-- Modelled from the spec: `random.random()` — returns a rational in
`[0,1)` and the advanced generator state. -/
def rngNext (g : ℕ) : ℚ × ℕ :=
  let g' := (1664525 * g + 1013904223) % rngModulus
  ((g' : ℚ) / (rngModulus : ℚ), g')

/-- The selection core of `AliasProb.draw_alias` (lines 75-79):
`pick = int(random.random() * len(self.alias))`, then return
`nbs.dst_id[pick]` if `random.random() < self.probs[pick]` and
`nbs.dst_id[self.alias[pick]]` otherwise, with the two uniform draws
passed in explicitly. -/
def drawAliasCore (ap : AliasProb) (nbs : Neighbors) (u₁ u₂ : ℚ) : Option ℤ :=
  let pick := pyInt (u₁ * (ap.alias.length : ℚ))
  match pyGet ap.probs pick with
  | none => none
  | some pr =>
    if u₂ < pr then pyGet nbs.dst_id pick
    else
      match pyGet ap.alias pick with
      | none => none
      | some a => pyGet nbs.dst_id a

/-- `AliasProb.draw_alias` with the global random state threaded
explicitly: an optional seed reseeds the generator first, then two
uniform draws are consumed. -/
def AliasProb.draw_alias (ap : AliasProb) (nbs : Neighbors)
    (seed : Option ℤ) (g : ℕ) : Option ℤ × ℕ :=
  let g0 := match seed with
    | some s => seedRng s
    | none => g
  let p1 := rngNext g0
  let p2 := rngNext p1.2
  (drawAliasCore ap nbs p1.1 p2.1, p2.2)

/-- The path-update logic of `RandomPath.append` (lines 118-125): the
source first copies the stored list (`path = list(self._data)`), so the
input value is never mutated — inherent in this functional embedding.
If the path is the 2-element sentinel form (`len(path) == 2 and
path[0] < 0`) the result is `[path[1], next]`; otherwise `next` is
appended. -/
def appendPath (path : List ℤ) (next : ℤ) : List ℤ :=
  match path with
  | [s, start] => if s < 0 then [start, next] else [s, start] ++ [next]
  | _ => path ++ [next]

/-- `RandomPath.append`: draw the next vertex, then extend the path;
if the draw raises (`none`), no path value is produced. -/
def RandomPath.append (p : RandomPath) (dst_neighbors : Neighbors)
    (alias_prob : AliasProb) (seed : Option ℤ) (g : ℕ) :
    Option RandomPath × ℕ :=
  let r := alias_prob.draw_alias dst_neighbors seed g
  match r.1 with
  | none => (none, r.2)
  | some next_vertex => (some ⟨appendPath p.data next_vertex⟩, r.2)

/-- The pairing loop of `generate_alias_tables` (lines 152-159):
`while underfull and overfull`, pop one index from each stack, alias the
underfull one to the overfull one, fold the underfull residue into the
overfull probability and re-classify it.  The Python stacks pop and push
at the tail; here each stack is held head-first, so `pop`/`append`
become head operations.  The source indexes `probs[under]`/`probs[over]`
with indices that are always in range (they come from `range(n)`);
`getD` with default `0` embeds that indexing. -/
def voseLoop (underfull overfull : List ℕ) («alias» : List ℕ)
    (probs : List ℚ) : List ℕ × List ℚ :=
  match underfull, overfull with
  | under :: us, over :: os =>
    let newProb := probs.getD over 0 + probs.getD under 0 - 1
    let alias' := «alias».set under over
    let probs' := probs.set over newProb
    if newProb < 1 then voseLoop (over :: us) os alias' probs'
    else voseLoop us (over :: os) alias' probs'
  | _, _ => («alias», probs)
termination_by underfull.length + overfull.length

/-- `generate_alias_tables` (lines 129-160): normalise the weights by
their average, split the indices into underfull and overfull worklists,
and run the pairing loop.  `n == 0` raises `ZeroDivisionError` at
`sum(node_weights) / n` (the documentation's `EmptyWeightsError`);
a zero average raises `ZeroDivisionError` inside the normalising
comprehension (reached because `n ≥ 1` there). -/
def generate_alias_tables (node_weights : List ℚ) :
    Except Err (List ℕ × List ℚ) :=
  let n := node_weights.length
  if n = 0 then .error .emptyWeights
  else
    let avg_weight := node_weights.sum / (n : ℚ)
    if avg_weight = 0 then .error .zeroDivision
    else
      let probs := node_weights.map (· / avg_weight)
      let «alias» := List.replicate n 0
      let underfull := ((List.range n).filter
        (fun i => decide (probs.getD i 0 < 1))).reverse
      let overfull := ((List.range n).filter
        (fun i => !decide (probs.getD i 0 < 1))).reverse
      .ok (voseLoop underfull overfull «alias» probs)

/-- The biased-weight computation of `generate_edge_alias_tables`
(lines 189-203): for each position `i` of the destination neighbour
list, divide by the return parameter when the neighbour is the source
node, keep the weight when it is a neighbour of the source, and divide
by the in/out parameter otherwise. -/
def biasedWeights (src_id : ℤ) (src_neighbors dst_neighbors : List ℤ × List ℚ)
    (return_param inout_param : ℚ) : List ℚ :=
  (List.range dst_neighbors.1.length).map fun i =>
    let dst_neighbor_id := dst_neighbors.1.getD i 0
    let weight := dst_neighbors.2.getD i 0
    if dst_neighbor_id = src_id then weight / return_param
    else if dst_neighbor_id ∈ src_neighbors.1 then weight
    else weight / inout_param

/-- `generate_edge_alias_tables` (lines 163-204): validate that each
neighbours tuple pairs two lists of equal length (`ValueError`,
the documentation's `InvalidNeighborsError`), reject zero bias
parameters (`ValueError`, `InvalidBiasParameterError`), then delegate
the biased weights to `generate_alias_tables`.  The Python check
`len(nbs) != 2` cannot fire in the embedding, where a neighbours value
is a pair by type. -/
def generate_edge_alias_tables (src_id : ℤ)
    (src_neighbors dst_neighbors : List ℤ × List ℚ)
    (return_param inout_param : ℚ) : Except Err (List ℕ × List ℚ) :=
  if src_neighbors.1.length ≠ src_neighbors.2.length ∨
      dst_neighbors.1.length ≠ dst_neighbors.2.length then
    .error .invalidNeighbors
  else if return_param = 0 ∨ inout_param = 0 then
    .error .invalidBiasParameter
  else
    generate_alias_tables
      (biasedWeights src_id src_neighbors dst_neighbors return_param inout_param)

/-! ### Transport codec

`serialize` renders `pickle.dumps(self._data)` through base64 into text.
The embedding keeps the blob as the underlying token sequence, a
`List ℤ`: pickling a pair of lists is modelled as a length-prefixed
flattening (each rational contributed as its reduced
numerator/denominator pair), and the base64 text layer — a bijection on
representations — is abstracted away.  `decode` parses the blob back and
fails (`DeserializationError`) on malformed input. -/

/-- Modelled from the spec: the pickle encoding of a `(list, list)` pair,
as a deterministic, versionless flattening of the structure. -/
def encodePair (d : List ℤ × List ℚ) : List ℤ :=
  (d.1.length : ℤ) ::
    (d.1 ++ (d.2.length : ℤ) :: d.2.flatMap (fun q => [q.num, (q.den : ℤ)]))

/-- Decode a flat run of numerator/denominator pairs back to rationals. -/
def decodeRats : List ℤ → List ℚ
  | a :: b :: t => ((a : ℚ) / (b : ℚ)) :: decodeRats t
  | _ => []

/-- Modelled from the spec: the inverse of `encodePair`; `none` on a
malformed blob. -/
def decodePair (l : List ℤ) : Option (List ℤ × List ℚ) :=
  match l with
  | [] => none
  | n :: rest =>
    if 0 ≤ n ∧ n.toNat ≤ rest.length then
      match rest.drop n.toNat with
      | [] => none
      | m :: rest2 =>
        if 0 ≤ m ∧ 2 * m.toNat = rest2.length then
          some (rest.take n.toNat, decodeRats rest2)
        else none
    else none

/-- Modelled from the spec: the pickle encoding of a bare list of ids
(`RandomPath._data`). -/
def encodeList (d : List ℤ) : List ℤ := (d.length : ℤ) :: d

/-- Modelled from the spec: the inverse of `encodeList`. -/
def decodeList (l : List ℤ) : Option (List ℤ) :=
  match l with
  | [] => none
  | n :: rest => if 0 ≤ n ∧ n.toNat = rest.length then some rest else none

/-- `Neighbors.serialize` (line 31-32). -/
def Neighbors.serialize (v : Neighbors) : List ℤ := encodePair v.data

/-- The `isinstance(obj, str)` branch of `Neighbors.__init__` (lines
13-14): build the value from a blob; the stored data is whatever the
blob decodes to, with no shape validation. -/
def Neighbors.ofBlob (blob : List ℤ) : Option Neighbors :=
  (decodePair blob).map Neighbors.mk

/-- The final branch of `Neighbors.__init__` (lines 17-18): store a raw
pair unchecked. -/
def Neighbors.ofPair (d : List ℤ × List ℚ) : Neighbors := ⟨d⟩

/-- A two-column row set with columns `dst` and `weight`, the shape of
the `pandas.DataFrame` used by `Neighbors`. -/
structure NeighborRows where
  dst : List ℤ
  weight : List ℚ
  deriving DecidableEq, Repr

/-- `Neighbors.as_pandas` (lines 34-35):
`pd.DataFrame({"dst": ..., "weight": ...})`.  Constructing a DataFrame
from columns of unequal length raises `ValueError` in pandas, so the
conversion only yields a row set for a well-formed value. -/
def Neighbors.as_pandas (v : Neighbors) : Option NeighborRows :=
  if v.data.1.length = v.data.2.length then some ⟨v.data.1, v.data.2⟩
  else none

/-- The `isinstance(obj, pd.DataFrame)` branch of `Neighbors.__init__`
(lines 15-16): read the two named columns back into a pair. -/
def Neighbors.ofRows (r : NeighborRows) : Neighbors := ⟨(r.dst, r.weight)⟩

/-- `AliasProb.serialize` (lines 61-62). -/
def AliasProb.serialize (v : AliasProb) : List ℤ := encodePair v.data

/-- The `isinstance(obj, str)` branch of `AliasProb.__init__` (lines
40-41). -/
def AliasProb.ofBlob (blob : List ℤ) : Option AliasProb :=
  (decodePair blob).map AliasProb.mk

/-- The final branch of `AliasProb.__init__` (lines 44-45). -/
def AliasProb.ofPair (d : List ℤ × List ℚ) : AliasProb := ⟨d⟩

/-- A two-column row set with columns `alias` and `probs`, the DataFrame
shape accepted by `AliasProb.__init__`. -/
structure AliasRows where
  «alias» : List ℤ
  probs : List ℚ
  deriving DecidableEq, Repr

/-- The `isinstance(obj, pd.DataFrame)` branch of `AliasProb.__init__`
(lines 42-43). -/
def AliasProb.ofRows (r : AliasRows) : AliasProb := ⟨(r.«alias», r.probs)⟩

/-- The source class `AliasProb` defines no `as_pandas` method — its
methods (lines 38-79) are `__init__`, `alias`, `probs`, `serialize` and
`draw_alias` — so an attempted tabular conversion fails with
`AttributeError` and produces no row set; modelled as `none`. -/
def AliasProb.as_pandas (_ : AliasProb) : Option AliasRows := none

/-- `RandomPath.serialize` (lines 97-98). -/
def RandomPath.serialize (v : RandomPath) : List ℤ := encodeList v.data

/-- The `isinstance(obj, str)` branch of `RandomPath.__init__` (lines
84-85). -/
def RandomPath.ofBlob (blob : List ℤ) : Option RandomPath :=
  (decodeList blob).map RandomPath.mk

/-- The final branch of `RandomPath.__init__` (lines 86-87): store the
list unchecked. -/
def RandomPath.ofList (d : List ℤ) : RandomPath := ⟨d⟩

/-- The source class `RandomPath` (lines 82-125) defines neither an
`as_pandas` method nor a DataFrame constructor branch; an attempted
tabular conversion fails with `AttributeError`; modelled as `none`. -/
def RandomPath.as_pandas (_ : RandomPath) : Option (List ℤ) := none

/-- The biased-weight rule exactly as the specification words it, applied
to the `(dst_neighbor_id, weight)` pairs of the destination neighbours in
order: divide by `p` for the return edge, keep the weight for a common
neighbour, divide by `q` otherwise.  Stated separately from
`biasedWeights` (which follows the source's index loop) so the two can be
compared. -/
def specBiasedWeights (src_id : ℤ) (src_ids : List ℤ) (dst : List (ℤ × ℚ))
    (p q : ℚ) : List ℚ :=
  dst.map fun iw =>
    if iw.1 = src_id then iw.2 / p
    else if iw.1 ∈ src_ids then iw.2
    else iw.2 / q

/-- The loop invariant of `voseLoop`, over tables of size `n`:
worklist indices are in range and pairwise distinct, underfull entries
hold a probability in `[0,1)`, overfull entries hold at least `1`,
finalised entries are already in `[0,1]`, alias entries are in range,
and the probabilities on the two worklists sum to the number of live
indices. -/
structure VoseInv (n : ℕ) (under over : List ℕ) («alias» : List ℕ)
    (probs : List ℚ) : Prop where
  probs_len : probs.length = n
  alias_len : «alias».length = n
  nodup : (under ++ over).Nodup
  under_mem : ∀ i ∈ under, i < n ∧ 0 ≤ probs.getD i 0 ∧ probs.getD i 0 < 1
  over_mem : ∀ i ∈ over, i < n ∧ 1 ≤ probs.getD i 0
  rest_mem : ∀ i, i < n → i ∉ under → i ∉ over →
    0 ≤ probs.getD i 0 ∧ probs.getD i 0 ≤ 1
  alias_mem : ∀ j ∈ «alias», j < n
  sum_eq : ((under ++ over).map fun i => probs.getD i 0).sum =
    (under.length : ℚ) + (over.length : ℚ)

/-! ### Helper lemmas -/

theorem decodeRats_encode (b : List ℚ) :
    decodeRats (b.flatMap fun q => [q.num, (q.den : ℤ)]) = b := by
  induction b with
  | nil => rfl
  | cons q t ih =>
    have h1 : (q :: t).flatMap (fun r => [r.num, (r.den : ℤ)]) =
        q.num :: (q.den : ℤ) :: t.flatMap (fun r => [r.num, (r.den : ℤ)]) := rfl
    rw [h1]
    show ((q.num : ℚ) / ((q.den : ℤ) : ℚ)) :: decodeRats _ = q :: t
    rw [ih, Int.cast_natCast, Rat.num_div_den]

theorem flatMap_pair_length (b : List ℚ) :
    (b.flatMap fun q => [q.num, (q.den : ℤ)]).length = 2 * b.length := by
  induction b with
  | nil => rfl
  | cons q t ih =>
    simp only [List.flatMap_cons, List.length_append, List.length_cons, ih,
      List.cons_append, List.nil_append, List.length_nil]
    omega

theorem map_pair_length_sum (b : List ℚ) :
    (List.map (List.length ∘ fun q : ℚ => [q.num, (q.den : ℤ)]) b).sum =
      2 * b.length := by
  induction b with
  | nil => rfl
  | cons q t ih =>
    simp only [List.map_cons, List.sum_cons, ih, Function.comp,
      List.length_cons, List.length_nil, List.length_cons]
    omega

theorem decodePair_encodePair (d : List ℤ × List ℚ) :
    decodePair (encodePair d) = some d := by
  obtain ⟨a, b⟩ := d
  simp [encodePair, decodePair, Int.toNat_natCast, List.drop_left,
    List.take_left, map_pair_length_sum, decodeRats_encode,
    List.length_append, Int.natCast_nonneg]

theorem decodeList_encodeList (d : List ℤ) :
    decodeList (encodeList d) = some d := by
  simp [encodeList, decodeList]

/-! ### Claims about the transport codec and constructors -/

/-- Claim C4, amended: `decode(encode(v))` reproduces the underlying data
exactly for all three transport types, and `from_rows(to_rows(v))`
reproduces a `Neighbors` value whose two parallel lists have equal
length; the source gives `AliasProb` and `RandomPath` no `as_pandas`
method, so no row round trip exists for them. -/
theorem claim_C4_roundtrip (nb : Neighbors) (ap : AliasProb) (rp : RandomPath)
    (h : nb.data.1.length = nb.data.2.length) :
    Neighbors.ofBlob nb.serialize = some nb ∧
    AliasProb.ofBlob ap.serialize = some ap ∧
    RandomPath.ofBlob rp.serialize = some rp ∧
    ∃ rows : NeighborRows, nb.as_pandas = some rows ∧
      Neighbors.ofRows rows = nb := by
  refine ⟨?_, ?_, ?_, ?_⟩
  · simp [Neighbors.ofBlob, Neighbors.serialize, decodePair_encodePair]
  · simp [AliasProb.ofBlob, AliasProb.serialize, decodePair_encodePair]
  · simp [RandomPath.ofBlob, RandomPath.serialize, decodeList_encodeList]
  · exact ⟨⟨nb.data.1, nb.data.2⟩, by simp [Neighbors.as_pandas, h], rfl⟩

/-- Claim C4, counterexample to the claim as stated: the source class
`AliasProb` defines no `as_pandas` method, so the row round trip cannot
reproduce the concrete value `AliasProb(([0], [1]))` — converting it to
rows yields no row set at all. -/
theorem claim_C4_counterexample :
    ¬ ∃ rows : AliasRows,
      (AliasProb.ofPair ([0], [1])).as_pandas = some rows ∧
        AliasProb.ofRows rows = AliasProb.ofPair ([0], [1]) := by
  rintro ⟨rows, hrows, -⟩
  simp [AliasProb.as_pandas] at hrows

/-- Witness for C4 at concrete values. -/
theorem claim_C4_witness :
    (Neighbors.ofPair ([1], [2])).data.1.length =
      (Neighbors.ofPair ([1], [2])).data.2.length ∧
    (Neighbors.ofBlob (Neighbors.ofPair ([1], [2])).serialize =
        some (Neighbors.ofPair ([1], [2])) ∧
      AliasProb.ofBlob (AliasProb.ofPair ([0], [1])).serialize =
        some (AliasProb.ofPair ([0], [1])) ∧
      RandomPath.ofBlob (RandomPath.ofList [1, 2]).serialize =
        some (RandomPath.ofList [1, 2]) ∧
      ∃ rows : NeighborRows,
        (Neighbors.ofPair ([1], [2])).as_pandas = some rows ∧
          Neighbors.ofRows rows = Neighbors.ofPair ([1], [2])) :=
  ⟨by decide,
    claim_C4_roundtrip (Neighbors.ofPair ([1], [2]))
      (AliasProb.ofPair ([0], [1])) (RandomPath.ofList [1, 2]) (by decide)⟩

/-- Claim C10: the constructors store their argument without any shape
validation: a mismatched raw pair constructs a `Neighbors` (and an
`AliasProb`) whose parallel lists differ in length, the blob of such a
value decodes back to the same invariant-breaking value, and a
one-element list constructs a `RandomPath` in neither documented state. -/
theorem claim_C10_no_validation :
    (Neighbors.ofPair ([1, 2], [1/2])).dst_id.length ≠
      (Neighbors.ofPair ([1, 2], [1/2])).dst_wt.length ∧
    Neighbors.ofBlob (Neighbors.ofPair ([1, 2], [1/2])).serialize =
      some (Neighbors.ofPair ([1, 2], [1/2])) ∧
    (AliasProb.ofPair ([0], [1, 1])).alias.length ≠
      (AliasProb.ofPair ([0], [1, 1])).probs.length ∧
    (RandomPath.ofList [3]).path.length < 2 := by
  refine ⟨by decide, ?_, by decide, by decide⟩
  simp [Neighbors.ofBlob, Neighbors.serialize, decodePair_encodePair]

/-! ### Claims about the table builder's error behaviour -/

/-- Claim C6: on the empty weight sequence the table builder fails with
the empty-weights error (the `ZeroDivisionError` raised by
`sum(node_weights) / n` at `n == 0`) and produces no table value. -/
theorem claim_C6_empty_weights :
    generate_alias_tables ([] : List ℚ) = .error .emptyWeights ∧
    ∀ t, generate_alias_tables ([] : List ℚ) ≠ .ok t := by
  constructor
  · rfl
  · intro t h
    simp [generate_alias_tables] at h

/-! ### Claims about drawing and path extension -/

/-- Claim C9: with a seed supplied, the draw and hence the path extension
do not depend on the prior state of the process-wide generator: two runs
over the same table, neighbours and seed return the same node id and the
same extended path. -/
theorem claim_C9_seeded_deterministic (ap : AliasProb) (nbs : Neighbors)
    (S : ℤ) (p : RandomPath) (g₁ g₂ : ℕ) :
    (ap.draw_alias nbs (some S) g₁).1 = (ap.draw_alias nbs (some S) g₂).1 ∧
    (p.append nbs ap (some S) g₁).1 = (p.append nbs ap (some S) g₂).1 :=
  ⟨rfl, rfl⟩

/-- Claim C3: when the draw succeeds, `RandomPath.append` returns a new
path value: the 2-element sentinel form `[s, start]` with `s < 0` becomes
`[start, next]` (the sentinel is dropped), and any other path is the
input with the drawn node appended, one longer.  The input value is left
unchanged: the source copies `self._data` before extending, and the
embedding is functional. -/
theorem claim_C3_append (p : RandomPath) (nbs : Neighbors) (ap : AliasProb)
    (seed : Option ℤ) (g : ℕ) (next : ℤ)
    (h : (ap.draw_alias nbs seed g).1 = some next) :
    (p.append nbs ap seed g).1 = some (⟨appendPath p.path next⟩ : RandomPath) ∧
    (∀ s start, p.path = [s, start] → s < 0 →
      appendPath p.path next = [start, next]) ∧
    ((∀ s start, p.path = [s, start] → 0 ≤ s) →
      appendPath p.path next = p.path ++ [next] ∧
      (appendPath p.path next).length = p.path.length + 1) := by
  refine ⟨?_, ?_, ?_⟩
  · simp only [RandomPath.append]
    rw [h]
    rfl
  · intro s start hp hs
    rw [RandomPath.path] at hp
    simp only [RandomPath.path, hp, appendPath, if_pos hs]
  · intro hnn
    rcases hp : p.path with _ | ⟨x, _ | ⟨y, _ | ⟨z, t⟩⟩⟩
    · simp [appendPath, hp]
    · simp [appendPath, hp]
    · have hx : 0 ≤ x := hnn x y hp
      simp [appendPath, not_lt.mpr hx]
    · simp [appendPath, hp]

/-- Witness for C3 at concrete values: extending the sentinel path
`[-1, 5]` with a seeded draw from a singleton table. -/
theorem claim_C3_witness :
    ((AliasProb.ofPair ([0], [1])).draw_alias (Neighbors.ofPair ([7], [1]))
        (some 0) 0).1 = some 7 ∧
    (((RandomPath.ofList [-1, 5]).append (Neighbors.ofPair ([7], [1]))
        (AliasProb.ofPair ([0], [1])) (some 0) 0).1 =
      some (⟨appendPath (RandomPath.ofList [-1, 5]).path 7⟩ : RandomPath) ∧
    (∀ s start, (RandomPath.ofList [-1, 5]).path = [s, start] → s < 0 →
      appendPath (RandomPath.ofList [-1, 5]).path 7 = [start, 7]) ∧
    ((∀ s start, (RandomPath.ofList [-1, 5]).path = [s, start] → 0 ≤ s) →
      appendPath (RandomPath.ofList [-1, 5]).path 7 =
        (RandomPath.ofList [-1, 5]).path ++ [7] ∧
      (appendPath (RandomPath.ofList [-1, 5]).path 7).length =
        (RandomPath.ofList [-1, 5]).path.length + 1)) := by
  have hdraw : ((AliasProb.ofPair ([0], [1])).draw_alias
      (Neighbors.ofPair ([7], [1])) (some 0) 0).1 = some 7 := by
    norm_num [AliasProb.draw_alias, AliasProb.ofPair, Neighbors.ofPair,
      seedRng, rngModulus, rngNext, drawAliasCore, AliasProb.alias,
      AliasProb.probs, Neighbors.dst_id, pyInt, pyGet, List.get?]
  exact ⟨hdraw,
    claim_C3_append (RandomPath.ofList [-1, 5]) (Neighbors.ofPair ([7], [1]))
      (AliasProb.ofPair ([0], [1])) (some 0) 0 7 hdraw⟩

/-! ### Claims about the edge-bias transform -/

theorem range_map_getD_eq_zip_map {α β γ : Type} (F : α → β → γ)
    (d₁ : α) (d₂ : β) :
    ∀ (l₁ : List α) (l₂ : List β), l₁.length = l₂.length →
      (List.range l₁.length).map (fun i => F (l₁.getD i d₁) (l₂.getD i d₂)) =
        (l₁.zip l₂).map (fun x => F x.1 x.2) := by
  intro l₁
  induction l₁ with
  | nil => intro l₂ h; rfl
  | cons a t ih =>
    intro l₂ h
    cases l₂ with
    | nil => simp at h
    | cons b t₂ =>
      have h' : t.length = t₂.length := by simpa using h
      simp only [List.length_cons, List.range_succ_eq_map, List.map_cons,
        List.map_map, List.zip_cons_cons, List.getD_cons_zero,
        Function.comp, List.getD_cons_succ]
      have hfun : ∀ i ∈ List.range t.length,
          ((fun i => F ((a :: t).getD i d₁) ((b :: t₂).getD i d₂)) ∘ Nat.succ) i =
            F (t.getD i d₁) (t₂.getD i d₂) := fun i _ => rfl
      rw [List.map_congr_left hfun, ih t₂ h']

theorem biasedWeights_eq_spec (src_id : ℤ) (s d : List ℤ × List ℚ) (p q : ℚ)
    (hd : d.1.length = d.2.length) :
    biasedWeights src_id s d p q =
      specBiasedWeights src_id s.1 (d.1.zip d.2) p q := by
  simp only [biasedWeights, specBiasedWeights]
  exact range_map_getD_eq_zip_map
    (fun i w => if i = src_id then w / p else if i ∈ s.1 then w else w / q)
    0 0 d.1 d.2 hd

/-- Claim C2: for valid inputs (equal-length parallel lists, non-zero
parameters) the edge-bias transform computes, for each
`(dst_neighbor_id, weight)` pair of the destination neighbours in order,
`weight/p` on the return edge, `weight` for a neighbour of the source,
and `weight/q` otherwise, and returns exactly the alias-table builder
applied to that biased-weight sequence. -/
theorem claim_C2_edge_bias (src_id : ℤ) (s d : List ℤ × List ℚ) (p q : ℚ)
    (hs : s.1.length = s.2.length) (hd : d.1.length = d.2.length)
    (hp : p ≠ 0) (hq : q ≠ 0) :
    generate_edge_alias_tables src_id s d p q =
      generate_alias_tables (specBiasedWeights src_id s.1 (d.1.zip d.2) p q) := by
  have h1 : ¬(s.1.length ≠ s.2.length ∨ d.1.length ≠ d.2.length) := by
    simp [hs, hd]
  have h2 : ¬(p = 0 ∨ q = 0) := by simp [hp, hq]
  rw [generate_edge_alias_tables, if_neg h1, if_neg h2,
    biasedWeights_eq_spec src_id s d p q hd]

/-- Witness for C2 at concrete values. -/
theorem claim_C2_witness :
    ((2 : ℚ) ≠ 0 ∧ (3 : ℚ) ≠ 0) ∧
    generate_edge_alias_tables 2 ([1], [1]) ([2, 3], [4, 6]) 2 3 =
      generate_alias_tables
        (specBiasedWeights 2 ([1], ([1] : List ℚ)).1
          ((([2, 3], ([4, 6] : List ℚ)).1).zip (([2, 3], ([4, 6] : List ℚ)).2)) 2 3) :=
  ⟨⟨by norm_num, by norm_num⟩,
    claim_C2_edge_bias 2 ([1], [1]) ([2, 3], [4, 6]) 2 3 rfl rfl
      (by norm_num) (by norm_num)⟩

/-- Claim C5: with `p = q = 1` the edge-bias transform returns exactly the
table the plain builder produces on the destination weights. -/
theorem claim_C5_pq_one (src_id : ℤ) (s d : List ℤ × List ℚ)
    (hs : s.1.length = s.2.length) (hd : d.1.length = d.2.length) :
    generate_edge_alias_tables src_id s d 1 1 = generate_alias_tables d.2 := by
  have h1 : ¬(s.1.length ≠ s.2.length ∨ d.1.length ≠ d.2.length) := by
    simp [hs, hd]
  have h2 : ¬((1 : ℚ) = 0 ∨ (1 : ℚ) = 0) := by norm_num
  rw [generate_edge_alias_tables, if_neg h1, if_neg h2,
    biasedWeights_eq_spec src_id s d 1 1 hd]
  congr 1
  simp only [specBiasedWeights]
  have hb : ∀ iw : ℤ × ℚ,
      (if iw.1 = src_id then iw.2 / 1 else if iw.1 ∈ s.1 then iw.2 else iw.2 / 1) =
        iw.2 := by
    intro iw
    split_ifs <;> simp
  rw [List.map_congr_left (fun a _ => hb a)]
  exact List.map_snd_zip d.1 d.2 (le_of_eq hd.symm)

/-- Witness for C5 at concrete values. -/
theorem claim_C5_witness :
    (([5], ([1] : List ℚ)).1.length = ([5], ([1] : List ℚ)).2.length ∧
      (([2, 3], ([4, 6] : List ℚ)).1.length =
        ([2, 3], ([4, 6] : List ℚ)).2.length)) ∧
    generate_edge_alias_tables 2 ([5], [1]) ([2, 3], [4, 6]) 1 1 =
      generate_alias_tables ([2, 3], ([4, 6] : List ℚ)).2 :=
  ⟨⟨rfl, rfl⟩, claim_C5_pq_one 2 ([5], [1]) ([2, 3], [4, 6]) rfl rfl⟩

theorem generate_alias_tables_cases (w : List ℚ) :
    generate_alias_tables w = .error .emptyWeights ∨
    generate_alias_tables w = .error .zeroDivision ∨
    ∃ t, generate_alias_tables w = .ok t := by
  by_cases h1 : w.length = 0
  · left
    simp [generate_alias_tables, h1]
  · by_cases h2 : w.sum / (w.length : ℚ) = 0
    · right; left
      simp [generate_alias_tables, h1, h2]
    · right; right
      simp only [generate_alias_tables, if_neg h1, if_neg h2]
      exact ⟨_, rfl⟩

/-- Claim C7: the edge-bias transform fails with the invalid-neighbours
error exactly when one of the supplied neighbour pairs has parallel lists
of different length; when both are well-formed it fails with the
invalid-bias-parameter error exactly when `p = 0` or `q = 0`; and on
either error no table is produced. -/
theorem claim_C7_edge_errors (src_id : ℤ) (s d : List ℤ × List ℚ) (p q : ℚ) :
    (generate_edge_alias_tables src_id s d p q = .error .invalidNeighbors ↔
      (s.1.length ≠ s.2.length ∨ d.1.length ≠ d.2.length)) ∧
    (s.1.length = s.2.length → d.1.length = d.2.length →
      (generate_edge_alias_tables src_id s d p q =
          .error .invalidBiasParameter ↔ (p = 0 ∨ q = 0))) ∧
    (∀ t, (generate_edge_alias_tables src_id s d p q =
            .error .invalidNeighbors ∨
          generate_edge_alias_tables src_id s d p q =
            .error .invalidBiasParameter) →
      generate_edge_alias_tables src_id s d p q ≠ .ok t) := by
  have hcases := generate_alias_tables_cases
    (biasedWeights src_id s d p q)
  refine ⟨?_, ?_, ?_⟩
  · by_cases hmis : s.1.length ≠ s.2.length ∨ d.1.length ≠ d.2.length
    · simp [generate_edge_alias_tables, if_pos hmis, hmis]
    · simp only [generate_edge_alias_tables, if_neg hmis, hmis, iff_false]
      by_cases hz : p = 0 ∨ q = 0
      · simp [hz]
      · simp only [if_neg hz]
        rcases hcases with h | h | ⟨t, h⟩ <;> simp [h]
  · intro hs hd
    have hmis : ¬(s.1.length ≠ s.2.length ∨ d.1.length ≠ d.2.length) := by
      simp [hs, hd]
    simp only [generate_edge_alias_tables, if_neg hmis]
    by_cases hz : p = 0 ∨ q = 0
    · simp [hz]
    · simp only [if_neg hz, hz, iff_false]
      rcases hcases with h | h | ⟨t, h⟩ <;> simp [h]
  · intro t herr hok
    rcases herr with h | h <;> rw [h] at hok <;> exact Except.noConfusion hok

/-- Witness for C7: the documentation's own error examples — a mismatched
source-neighbour pair, and a zero return parameter. -/
theorem claim_C7_witness :
    generate_edge_alias_tables 0 ([1, 2], [1/2]) ([1], [1]) 1 1 =
      .error .invalidNeighbors ∧
    generate_edge_alias_tables 0 ([1], [1]) ([1], [1]) 0 1 =
      .error .invalidBiasParameter := by
  constructor
  · exact (claim_C7_edge_errors 0 ([1, 2], [1/2]) ([1], [1]) 1 1).1.mpr
      (by norm_num)
  · exact ((claim_C7_edge_errors 0 ([1], [1]) ([1], [1]) 0 1).2.1 rfl rfl).mpr
      (Or.inl rfl)

/-! ### Claim about the alias draw -/

theorem pyGet_eq {α : Type} (l : List α) (k : ℕ) (h : k < l.length) (d : α) :
    pyGet l (k : ℤ) = some (l.getD k d) := by
  rw [pyGet, if_pos (Int.natCast_nonneg k), Int.toNat_natCast,
    List.get?_eq_getElem?, List.getElem?_eq_getElem h, List.getD_eq_getElem l d h]

theorem getD_mem {α : Type} (l : List α) (k : ℕ) (d : α) (h : k < l.length) :
    l.getD k d ∈ l := by
  rw [List.getD_eq_getElem l d h]
  exact List.getElem_mem h

/-- Claim C8: under the documented precondition — alias, probability and
neighbour lists of one common length `n ≥ 1` with every alias entry in
`[0,n)` — the draw picks the index `k = int(u₁ · n)`, which is in
`[0,n)`, returns `dst_ids[k]` if `u₂ < probs[k]` and `dst_ids[alias[k]]`
otherwise, never indexes out of range, and always returns an element of
`neighbors.dst_ids`. -/
theorem claim_C8_draw (ap : AliasProb) (nbs : Neighbors) (u₁ u₂ : ℚ) (n : ℕ)
    (hn : 1 ≤ n) (ha : ap.alias.length = n) (hp : ap.probs.length = n)
    (hd : nbs.dst_id.length = n)
    (hal : ∀ a ∈ ap.alias, 0 ≤ a ∧ a < (n : ℤ))
    (h₁ : 0 ≤ u₁) (h₂ : u₁ < 1) :
    ∃ k : ℕ, k < n ∧ pyInt (u₁ * ((ap.alias.length : ℕ) : ℚ)) = (k : ℤ) ∧
      drawAliasCore ap nbs u₁ u₂ =
        some (if u₂ < ap.probs.getD k 0 then nbs.dst_id.getD k 0
          else nbs.dst_id.getD (ap.alias.getD k 0).toNat 0) ∧
      ∀ r, drawAliasCore ap nbs u₁ u₂ = some r → r ∈ nbs.dst_id := by
  have hn0 : 0 < n := hn
  have hnpos : (0 : ℚ) < (n : ℚ) := by exact_mod_cast hn0
  have hx0 : 0 ≤ u₁ * (n : ℚ) := mul_nonneg h₁ hnpos.le
  have hfl0 : 0 ≤ ⌊u₁ * (n : ℚ)⌋ := Int.floor_nonneg.mpr hx0
  have hxlt : u₁ * (n : ℚ) < (n : ℚ) := by
    calc u₁ * (n : ℚ) < 1 * (n : ℚ) := mul_lt_mul_of_pos_right h₂ hnpos
      _ = (n : ℚ) := one_mul _
  have hfllt : ⌊u₁ * (n : ℚ)⌋ < (n : ℤ) := Int.floor_lt.mpr (by exact_mod_cast hxlt)
  have hkn : (⌊u₁ * (n : ℚ)⌋).toNat < n := by omega
  have hcast : (((⌊u₁ * (n : ℚ)⌋).toNat : ℕ) : ℤ) = ⌊u₁ * (n : ℚ)⌋ :=
    Int.toNat_of_nonneg hfl0
  have hpi : pyInt (u₁ * ((ap.alias.length : ℕ) : ℚ)) =
      (((⌊u₁ * (n : ℚ)⌋).toNat : ℕ) : ℤ) := by
    rw [ha, pyInt, if_pos hx0, hcast]
  have hprobs : pyGet ap.probs (((⌊u₁ * (n : ℚ)⌋).toNat : ℕ) : ℤ) =
      some (ap.probs.getD (⌊u₁ * (n : ℚ)⌋).toNat 0) :=
    pyGet_eq ap.probs _ (by rw [hp]; exact hkn) 0
  have hdst : pyGet nbs.dst_id (((⌊u₁ * (n : ℚ)⌋).toNat : ℕ) : ℤ) =
      some (nbs.dst_id.getD (⌊u₁ * (n : ℚ)⌋).toNat 0) :=
    pyGet_eq nbs.dst_id _ (by rw [hd]; exact hkn) 0
  have haK : pyGet ap.alias (((⌊u₁ * (n : ℚ)⌋).toNat : ℕ) : ℤ) =
      some (ap.alias.getD (⌊u₁ * (n : ℚ)⌋).toNat 0) :=
    pyGet_eq ap.alias _ (by rw [ha]; exact hkn) 0
  obtain ⟨ha0, haLt⟩ :=
    hal _ (getD_mem ap.alias (⌊u₁ * (n : ℚ)⌋).toNat 0 (by rw [ha]; exact hkn))
  have haNat : (ap.alias.getD (⌊u₁ * (n : ℚ)⌋).toNat 0).toNat < n := by omega
  have hdst2 : pyGet nbs.dst_id (ap.alias.getD (⌊u₁ * (n : ℚ)⌋).toNat 0) =
      some (nbs.dst_id.getD (ap.alias.getD (⌊u₁ * (n : ℚ)⌋).toNat 0).toNat 0) := by
    rw [← Int.toNat_of_nonneg ha0]
    exact pyGet_eq nbs.dst_id _ (by rw [hd]; exact haNat) 0
  have hchar : drawAliasCore ap nbs u₁ u₂ =
      some (if u₂ < ap.probs.getD (⌊u₁ * (n : ℚ)⌋).toNat 0
        then nbs.dst_id.getD (⌊u₁ * (n : ℚ)⌋).toNat 0
        else nbs.dst_id.getD (ap.alias.getD (⌊u₁ * (n : ℚ)⌋).toNat 0).toNat 0) := by
    simp only [drawAliasCore, hpi, hprobs]
    by_cases hif : u₂ < ap.probs.getD (⌊u₁ * (n : ℚ)⌋).toNat 0
    · rw [if_pos hif, if_pos hif, hdst]
    · rw [if_neg hif, if_neg hif, haK]
      exact hdst2
  refine ⟨(⌊u₁ * (n : ℚ)⌋).toNat, hkn, hpi, hchar, ?_⟩
  intro r hr
  rw [hchar] at hr
  have hr' := Option.some.inj hr
  by_cases hif : u₂ < ap.probs.getD (⌊u₁ * (n : ℚ)⌋).toNat 0
  · rw [if_pos hif] at hr'
    rw [← hr']
    exact getD_mem nbs.dst_id _ 0 (by rw [hd]; exact hkn)
  · rw [if_neg hif] at hr'
    rw [← hr']
    exact getD_mem nbs.dst_id _ 0 (by rw [hd]; exact haNat)

/-- Witness for C8: a two-entry table with `u₁ = 0` and `u₂ = 1`. -/
theorem claim_C8_witness :
    ((1 : ℕ) ≤ 2 ∧
      (∀ a ∈ (AliasProb.ofPair ([1, 0], [1/2, 1])).alias,
        0 ≤ a ∧ a < (2 : ℤ)) ∧
      (0 : ℚ) ≤ 0 ∧ (0 : ℚ) < 1) ∧
    (∃ k : ℕ, k < 2 ∧
      pyInt (0 * (((AliasProb.ofPair ([1, 0], [1/2, 1])).alias.length : ℕ) : ℚ)) =
        (k : ℤ) ∧
      drawAliasCore (AliasProb.ofPair ([1, 0], [1/2, 1]))
          (Neighbors.ofPair ([10, 20], [1, 1])) 0 1 =
        some (if (1 : ℚ) < (AliasProb.ofPair ([1, 0], [1/2, 1])).probs.getD k 0
          then (Neighbors.ofPair ([10, 20], [1, 1])).dst_id.getD k 0
          else (Neighbors.ofPair ([10, 20], [1, 1])).dst_id.getD
            ((AliasProb.ofPair ([1, 0], [1/2, 1])).alias.getD k 0).toNat 0) ∧
      ∀ r, drawAliasCore (AliasProb.ofPair ([1, 0], [1/2, 1]))
          (Neighbors.ofPair ([10, 20], [1, 1])) 0 1 = some r →
        r ∈ (Neighbors.ofPair ([10, 20], [1, 1])).dst_id) :=
  ⟨⟨by norm_num, by decide, le_refl 0, by norm_num⟩,
    claim_C8_draw (AliasProb.ofPair ([1, 0], [1/2, 1]))
      (Neighbors.ofPair ([10, 20], [1, 1])) 0 1 2
      (by norm_num) rfl rfl rfl (by decide) (le_refl 0) (by norm_num)⟩

/-! ### Claim C1: shape and bounds of the built table -/

theorem getD_set_self {α : Type} (l : List α) (i : ℕ) (x d : α)
    (h : i < l.length) : (l.set i x).getD i d = x := by
  rw [List.getD_eq_getElem?_getD, List.getElem?_set_self h]
  rfl

theorem getD_set_ne {α : Type} (l : List α) (i j : ℕ) (x d : α)
    (h : i ≠ j) : (l.set i x).getD j d = l.getD j d := by
  rw [List.getD_eq_getElem?_getD, List.getElem?_set_ne h,
    ← List.getD_eq_getElem?_getD]

theorem map_getD_range {α : Type} (l : List α) (d : α) :
    (List.range l.length).map (fun i => l.getD i d) = l := by
  induction l with
  | nil => rfl
  | cons a t ih =>
    rw [List.length_cons, List.range_succ_eq_map, List.map_cons, List.map_map]
    have hfun : ∀ i ∈ List.range t.length,
        ((fun i => (a :: t).getD i d) ∘ Nat.succ) i = t.getD i d := fun i _ => rfl
    rw [List.map_congr_left hfun, ih]
    rfl

theorem sum_map_div (l : List ℚ) (c : ℚ) : (l.map (· / c)).sum = l.sum / c := by
  induction l with
  | nil => simp
  | cons a t ih => simp [ih, add_div]

theorem one_le_sum_of_mem (l : List ℚ) (h : ∀ x ∈ l, 1 ≤ x) :
    (l.length : ℚ) ≤ l.sum := by
  induction l with
  | nil => simp
  | cons a t ih =>
    have ha := h a (List.mem_cons_self a t)
    have ht := ih fun x hx => h x (List.mem_cons_of_mem a hx)
    simp only [List.length_cons, List.sum_cons]
    push_cast
    linarith

theorem all_eq_one_of_sum_eq (l : List ℚ) (h1 : ∀ x ∈ l, 1 ≤ x)
    (h2 : l.sum = l.length) : ∀ x ∈ l, x = 1 := by
  induction l with
  | nil => simp
  | cons a t ih =>
    intro x hx
    have ha := h1 a (List.mem_cons_self a t)
    have ht : (t.length : ℚ) ≤ t.sum :=
      one_le_sum_of_mem t fun y hy => h1 y (List.mem_cons_of_mem a hy)
    have hsum : a + t.sum = (t.length : ℚ) + 1 := by
      have := h2
      simp only [List.sum_cons, List.length_cons] at this
      push_cast at this
      linarith
    have ha1 : a = 1 := by linarith
    have ht1 : t.sum = t.length := by linarith
    rcases List.mem_cons.mp hx with rfl | hx'
    · exact ha1
    · exact ih (fun y hy => h1 y (List.mem_cons_of_mem a hy)) ht1 x hx'

theorem sum_middle (u o : ℕ) (us os : List ℕ) (f : ℕ → ℚ)
    (hsum : (((u :: us) ++ o :: os).map f).sum =
      ((u :: us).length : ℚ) + ((o :: os).length : ℚ)) :
    ((us ++ os).map f).sum =
      (us.length : ℚ) + (os.length : ℚ) + 2 - f u - f o := by
  have hps := ((@List.perm_middle ℕ o us os).map f).sum_eq
  rw [List.map_cons, List.sum_cons] at hps
  simp only [List.cons_append, List.map_cons, List.sum_cons,
    List.length_cons] at hsum
  rw [hps] at hsum
  push_cast at hsum
  linarith

theorem voseInv_step_under (n u o : ℕ) (us os al : List ℕ) (probs : List ℚ)
    (inv : VoseInv n (u :: us) (o :: os) al probs)
    (hlt : probs.getD o 0 + probs.getD u 0 - 1 < 1) :
    VoseInv n (o :: us) os (al.set u o)
      (probs.set o (probs.getD o 0 + probs.getD u 0 - 1)) := by
  obtain ⟨hpl, hal, hnd, hum, hom, hrm, ham, hsm⟩ := inv
  have hnd' : (u :: (us ++ o :: os)).Nodup := by simpa using hnd
  obtain ⟨hu_nin, hnd2⟩ := List.nodup_cons.mp hnd'
  have huus : u ∉ us := fun h => hu_nin (List.mem_append.mpr (Or.inl h))
  have huo : u ≠ o := fun h =>
    hu_nin (List.mem_append.mpr (Or.inr (h ▸ List.mem_cons_self o os)))
  have hnd3 : (o :: (us ++ os)).Nodup := (List.perm_middle).nodup hnd2
  obtain ⟨ho_nin, hnd4⟩ := List.nodup_cons.mp hnd3
  have hous : o ∉ us := fun h => ho_nin (List.mem_append.mpr (Or.inl h))
  have hoos : o ∉ os := fun h => ho_nin (List.mem_append.mpr (Or.inr h))
  obtain ⟨hun, hu0, hu1⟩ := hum u (List.mem_cons_self u us)
  obtain ⟨hon, ho1⟩ := hom o (List.mem_cons_self o os)
  have hopl : o < probs.length := hpl ▸ hon
  have hset_o : (probs.set o (probs.getD o 0 + probs.getD u 0 - 1)).getD o 0 =
      probs.getD o 0 + probs.getD u 0 - 1 := getD_set_self probs o _ 0 hopl
  have hset_ne : ∀ i, i ≠ o →
      (probs.set o (probs.getD o 0 + probs.getD u 0 - 1)).getD i 0 =
        probs.getD i 0 := fun i hi => getD_set_ne probs o i _ 0 (Ne.symm hi)
  have hmid := sum_middle u o us os (fun i => probs.getD i 0) hsm
  have hmap : ((us ++ os).map fun i =>
        (probs.set o (probs.getD o 0 + probs.getD u 0 - 1)).getD i 0).sum =
      ((us ++ os).map fun i => probs.getD i 0).sum := by
    refine congrArg List.sum (List.map_congr_left ?_)
    intro i hi
    have hio : i ≠ o := by
      rcases List.mem_append.mp hi with h | h
      · exact fun he => hous (he ▸ h)
      · exact fun he => hoos (he ▸ h)
    exact hset_ne i hio
  refine ⟨?_, ?_, ?_, ?_, ?_, ?_, ?_, ?_⟩
  · rw [List.length_set]; exact hpl
  · rw [List.length_set]; exact hal
  · simpa using hnd3
  · intro i hi
    rcases List.mem_cons.mp hi with rfl | hi'
    · refine ⟨hon, ?_, ?_⟩
      · rw [hset_o]; linarith
      · rw [hset_o]; exact hlt
    · have hio : i ≠ o := fun h => hous (h ▸ hi')
      obtain ⟨hin, hi0, hi1⟩ := hum i (List.mem_cons_of_mem u hi')
      exact ⟨hin, by rw [hset_ne i hio]; exact hi0,
        by rw [hset_ne i hio]; exact hi1⟩
  · intro i hi
    have hio : i ≠ o := fun h => hoos (h ▸ hi)
    obtain ⟨hin, hi1⟩ := hom i (List.mem_cons_of_mem o hi)
    exact ⟨hin, by rw [hset_ne i hio]; exact hi1⟩
  · intro i hin hno hnos
    by_cases hiu : i = u
    · subst hiu
      rw [hset_ne i huo]
      exact ⟨hu0, hu1.le⟩
    · have hinus : i ∉ us := fun h => hno (List.mem_cons_of_mem o h)
      have hio : i ≠ o := fun h => hno (h ▸ List.mem_cons_self o us)
      have hold := hrm i hin
        (by simp [List.mem_cons, hiu, hinus])
        (by simp [List.mem_cons, hio, hnos])
      rw [hset_ne i hio]
      exact hold
  · intro j hj
    rcases List.mem_or_eq_of_mem_set hj with h | rfl
    · exact ham j h
    · exact hon
  · simp only [List.cons_append, List.map_cons, List.sum_cons, hset_o, hmap,
      hmid, List.length_cons]
    push_cast
    ring

theorem voseInv_step_over (n u o : ℕ) (us os al : List ℕ) (probs : List ℚ)
    (inv : VoseInv n (u :: us) (o :: os) al probs)
    (hge : ¬ probs.getD o 0 + probs.getD u 0 - 1 < 1) :
    VoseInv n us (o :: os) (al.set u o)
      (probs.set o (probs.getD o 0 + probs.getD u 0 - 1)) := by
  obtain ⟨hpl, hal, hnd, hum, hom, hrm, ham, hsm⟩ := inv
  have hnd' : (u :: (us ++ o :: os)).Nodup := by simpa using hnd
  obtain ⟨hu_nin, hnd2⟩ := List.nodup_cons.mp hnd'
  have huus : u ∉ us := fun h => hu_nin (List.mem_append.mpr (Or.inl h))
  have huo : u ≠ o := fun h =>
    hu_nin (List.mem_append.mpr (Or.inr (h ▸ List.mem_cons_self o os)))
  have huos : u ∉ os := fun h =>
    hu_nin (List.mem_append.mpr (Or.inr (List.mem_cons_of_mem o h)))
  have hnd3 : (o :: (us ++ os)).Nodup := (List.perm_middle).nodup hnd2
  obtain ⟨ho_nin, hnd4⟩ := List.nodup_cons.mp hnd3
  have hous : o ∉ us := fun h => ho_nin (List.mem_append.mpr (Or.inl h))
  have hoos : o ∉ os := fun h => ho_nin (List.mem_append.mpr (Or.inr h))
  obtain ⟨hun, hu0, hu1⟩ := hum u (List.mem_cons_self u us)
  obtain ⟨hon, ho1⟩ := hom o (List.mem_cons_self o os)
  have hopl : o < probs.length := hpl ▸ hon
  have hset_o : (probs.set o (probs.getD o 0 + probs.getD u 0 - 1)).getD o 0 =
      probs.getD o 0 + probs.getD u 0 - 1 := getD_set_self probs o _ 0 hopl
  have hset_ne : ∀ i, i ≠ o →
      (probs.set o (probs.getD o 0 + probs.getD u 0 - 1)).getD i 0 =
        probs.getD i 0 := fun i hi => getD_set_ne probs o i _ 0 (Ne.symm hi)
  have hmid := sum_middle u o us os (fun i => probs.getD i 0) hsm
  have hmap : ((us ++ os).map fun i =>
        (probs.set o (probs.getD o 0 + probs.getD u 0 - 1)).getD i 0).sum =
      ((us ++ os).map fun i => probs.getD i 0).sum := by
    refine congrArg List.sum (List.map_congr_left ?_)
    intro i hi
    have hio : i ≠ o := by
      rcases List.mem_append.mp hi with h | h
      · exact fun he => hous (he ▸ h)
      · exact fun he => hoos (he ▸ h)
    exact hset_ne i hio
  refine ⟨?_, ?_, ?_, ?_, ?_, ?_, ?_, ?_⟩
  · rw [List.length_set]; exact hpl
  · rw [List.length_set]; exact hal
  · exact hnd2
  · intro i hi
    have hio : i ≠ o := fun h => hous (h ▸ hi)
    obtain ⟨hin, hi0, hi1⟩ := hum i (List.mem_cons_of_mem u hi)
    exact ⟨hin, by rw [hset_ne i hio]; exact hi0,
      by rw [hset_ne i hio]; exact hi1⟩
  · intro i hi
    rcases List.mem_cons.mp hi with rfl | hi'
    · exact ⟨hon, by rw [hset_o]; linarith [not_lt.mp hge]⟩
    · have hio : i ≠ o := fun h => hoos (h ▸ hi')
      obtain ⟨hin, hi1⟩ := hom i (List.mem_cons_of_mem o hi')
      exact ⟨hin, by rw [hset_ne i hio]; exact hi1⟩
  · intro i hin hnus hnoos
    by_cases hiu : i = u
    · subst hiu
      rw [hset_ne i huo]
      exact ⟨hu0, hu1.le⟩
    · have hio : i ≠ o := fun h => hnoos (h ▸ List.mem_cons_self o os)
      have hold := hrm i hin
        (by simp [List.mem_cons, hiu, hnus])
        hnoos
      rw [hset_ne i hio]
      exact hold
  · intro j hj
    rcases List.mem_or_eq_of_mem_set hj with h | rfl
    · exact ham j h
    · exact hon
  · have hperm := ((@List.perm_middle ℕ o us os).map
      fun i => (probs.set o (probs.getD o 0 + probs.getD u 0 - 1)).getD i 0).sum_eq
    rw [hperm, List.map_cons, List.sum_cons, hset_o, hmap, hmid]
    simp only [List.length_cons]
    push_cast
    ring

theorem voseLoop_spec (n : ℕ) :
    ∀ (m : ℕ) (under over al : List ℕ) (probs : List ℚ),
      under.length + over.length = m →
      VoseInv n under over al probs →
      (voseLoop under over al probs).1.length = n ∧
      (voseLoop under over al probs).2.length = n ∧
      (∀ j ∈ (voseLoop under over al probs).1, j < n) ∧
      (∀ x ∈ (voseLoop under over al probs).2, 0 ≤ x ∧ x ≤ 1) := by
  intro m
  induction m using Nat.strong_induction_on with
  | _ m IH =>
    intro under over al probs hm inv
    rcases under with _ | ⟨u, us⟩
    · have hvl : voseLoop [] over al probs = (al, probs) := by
        rw [voseLoop]
        simp
      rw [hvl]
      refine ⟨inv.alias_len, inv.probs_len, inv.alias_mem, ?_⟩
      intro x hx
      obtain ⟨i, hi, hix⟩ := List.mem_iff_getElem.mp hx
      have hin : i < n := inv.probs_len ▸ hi
      have hgx : probs.getD i 0 = x := by
        rw [List.getD_eq_getElem probs 0 hi, hix]
      by_cases hio : i ∈ over
      · have hsm : (over.map fun i => probs.getD i 0).sum = (over.length : ℚ) := by
          have := inv.sum_eq
          simpa using this
        have h1 : ∀ y ∈ over.map fun i => probs.getD i 0, 1 ≤ y := by
          intro y hy
          obtain ⟨j, hj, rfl⟩ := List.mem_map.mp hy
          exact (inv.over_mem j hj).2
        have h2 : (over.map fun i => probs.getD i 0).sum =
            (((over.map fun i => probs.getD i 0).length : ℕ) : ℚ) := by
          rw [List.length_map]
          exact hsm
        have hone := all_eq_one_of_sum_eq _ h1 h2 _
          (List.mem_map_of_mem (fun i => probs.getD i 0) hio)
        have hone' : probs.getD i 0 = 1 := hone
        rw [← hgx, hone']
        norm_num
      · have hrest := inv.rest_mem i hin (List.not_mem_nil i) hio
        rw [← hgx]
        exact hrest
    · rcases over with _ | ⟨o, os⟩
      · have hvl : voseLoop (u :: us) [] al probs = (al, probs) := by
          rw [voseLoop]
          simp
        rw [hvl]
        refine ⟨inv.alias_len, inv.probs_len, inv.alias_mem, ?_⟩
        intro x hx
        obtain ⟨i, hi, hix⟩ := List.mem_iff_getElem.mp hx
        have hin : i < n := inv.probs_len ▸ hi
        have hgx : probs.getD i 0 = x := by
          rw [List.getD_eq_getElem probs 0 hi, hix]
        by_cases hiu : i ∈ u :: us
        · obtain ⟨_, h0, h1⟩ := inv.under_mem i hiu
          rw [← hgx]
          exact ⟨h0, h1.le⟩
        · have hrest := inv.rest_mem i hin hiu (List.not_mem_nil i)
          rw [← hgx]
          exact hrest
      · have hstep : voseLoop (u :: us) (o :: os) al probs =
            if probs.getD o 0 + probs.getD u 0 - 1 < 1 then
              voseLoop (o :: us) os (al.set u o)
                (probs.set o (probs.getD o 0 + probs.getD u 0 - 1))
            else voseLoop us (o :: os) (al.set u o)
                (probs.set o (probs.getD o 0 + probs.getD u 0 - 1)) := by
          rw [voseLoop]
        have hm' : us.length + os.length + 1 < m := by
          simp only [List.length_cons] at hm
          omega
        by_cases hlt : probs.getD o 0 + probs.getD u 0 - 1 < 1
        · rw [hstep, if_pos hlt]
          exact IH (us.length + os.length + 1) hm' (o :: us) os _ _
            (by simp only [List.length_cons]; omega)
            (voseInv_step_under n u o us os al probs inv hlt)
        · rw [hstep, if_neg hlt]
          exact IH (us.length + os.length + 1) hm' us (o :: os) _ _
            (by simp only [List.length_cons]; omega)
            (voseInv_step_over n u o us os al probs inv hlt)

theorem voseInit (w : List ℚ) (hne : w ≠ []) (hw : ∀ x ∈ w, 0 ≤ x)
    (hs : 0 < w.sum) :
    VoseInv w.length
      (((List.range w.length).filter fun i =>
        decide ((w.map (· / (w.sum / (w.length : ℚ)))).getD i 0 < 1)).reverse)
      (((List.range w.length).filter fun i =>
        !decide ((w.map (· / (w.sum / (w.length : ℚ)))).getD i 0 < 1)).reverse)
      (List.replicate w.length 0)
      (w.map (· / (w.sum / (w.length : ℚ)))) := by
  have hn0 : ¬ w.length = 0 := by simpa [List.length_eq_zero] using hne
  have hnpos : (0 : ℚ) < (w.length : ℚ) := by
    exact_mod_cast Nat.pos_of_ne_zero hn0
  have havg : 0 < w.sum / (w.length : ℚ) := div_pos hs hnpos
  set avg := w.sum / (w.length : ℚ) with havg_def
  set P := w.map (· / avg) with hP_def
  set p : ℕ → Bool := fun i => decide (P.getD i 0 < 1) with hp_def
  set U := ((List.range w.length).filter p).reverse with hU_def
  set O := ((List.range w.length).filter fun i => !p i).reverse with hO_def
  have hPlen : P.length = w.length := by
    rw [hP_def, List.length_map]
  have hPget : ∀ i, i < w.length → P.getD i 0 = w.getD i 0 / avg := by
    intro i hi
    have hi' : i < P.length := by rw [hPlen]; exact hi
    rw [List.getD_eq_getElem P 0 hi', List.getD_eq_getElem w 0 hi]
    exact List.getElem_map _
  have hPnn : ∀ i, i < w.length → 0 ≤ P.getD i 0 := by
    intro i hi
    rw [hPget i hi]
    exact div_nonneg (hw _ (getD_mem w i 0 hi)) havg.le
  have hUmem : ∀ i, i ∈ U ↔ i < w.length ∧ P.getD i 0 < 1 := by
    intro i
    rw [hU_def]
    simp [List.mem_filter, List.mem_range, hp_def]
  have hOmem : ∀ i, i ∈ O ↔ i < w.length ∧ ¬ P.getD i 0 < 1 := by
    intro i
    rw [hO_def]
    simp [List.mem_filter, List.mem_range, hp_def]
  have hperm : (U ++ O).Perm (List.range w.length) := by
    have h1 : U.Perm ((List.range w.length).filter p) := List.reverse_perm _
    have h2 : O.Perm ((List.range w.length).filter fun i => !p i) :=
      List.reverse_perm _
    exact (h1.append h2).trans (List.filter_append_perm p _)
  have hlen : U.length + O.length = w.length := by
    have h := hperm.length_eq
    simpa [List.length_append, List.length_range] using h
  refine ⟨hPlen, List.length_replicate _ _, ?_, ?_, ?_, ?_, ?_, ?_⟩
  · exact hperm.symm.nodup (List.nodup_range _)
  · intro i hi
    obtain ⟨h1, h2⟩ := (hUmem i).mp hi
    exact ⟨h1, hPnn i h1, h2⟩
  · intro i hi
    obtain ⟨h1, h2⟩ := (hOmem i).mp hi
    exact ⟨h1, not_lt.mp h2⟩
  · intro i hin hu ho
    by_cases hpi : P.getD i 0 < 1
    · exact absurd ((hUmem i).mpr ⟨hin, hpi⟩) hu
    · exact absurd ((hOmem i).mpr ⟨hin, hpi⟩) ho
  · intro j hj
    rw [List.eq_of_mem_replicate hj]
    exact Nat.pos_of_ne_zero hn0
  · have hmapsum : ((U ++ O).map fun i => P.getD i 0).sum =
        ((List.range w.length).map fun i => P.getD i 0).sum :=
      (hperm.map _).sum_eq
    have hrange : ((List.range w.length).map fun i => P.getD i 0).sum = P.sum := by
      have h := map_getD_range P 0
      rw [hPlen] at h
      rw [h]
    have hPsum : P.sum = (w.length : ℚ) := by
      rw [hP_def, sum_map_div, havg_def, div_div_eq_mul_div, mul_comm,
        mul_div_assoc, div_self hs.ne', mul_one]
    rw [hmapsum, hrange, hPsum, ← hlen]
    push_cast
    ring

/-- Claim C1: on a non-empty sequence of non-negative weights with
positive sum (the documentation's data model takes edge weights
non-negative), the builder succeeds and returns an alias list of length
`n` with every entry in `[0,n)` and a probability list of length `n`
with every entry in `[0,1]` — exactly, in the rational model, which is
the "up to floating tolerance" reading. -/
theorem claim_C1_table_shape (w : List ℚ) (hne : w ≠ [])
    (hw : ∀ x ∈ w, 0 ≤ x) (hs : 0 < w.sum) :
    ∃ al probs, generate_alias_tables w = .ok (al, probs) ∧
      al.length = w.length ∧ probs.length = w.length ∧
      (∀ j ∈ al, j < w.length) ∧ ∀ x ∈ probs, 0 ≤ x ∧ x ≤ 1 := by
  have hn0 : ¬ w.length = 0 := by simpa [List.length_eq_zero] using hne
  have hnpos : (0 : ℚ) < (w.length : ℚ) := by
    exact_mod_cast Nat.pos_of_ne_zero hn0
  have havg : 0 < w.sum / (w.length : ℚ) := div_pos hs hnpos
  have hinv := voseInit w hne hw hs
  obtain ⟨h1, h2, h3, h4⟩ := voseLoop_spec w.length
    ((((List.range w.length).filter fun i =>
        decide ((w.map (· / (w.sum / (w.length : ℚ)))).getD i 0 < 1)).reverse).length +
      ((((List.range w.length).filter fun i =>
        !decide ((w.map (· / (w.sum / (w.length : ℚ)))).getD i 0 < 1)).reverse)).length)
    (((List.range w.length).filter fun i =>
      decide ((w.map (· / (w.sum / (w.length : ℚ)))).getD i 0 < 1)).reverse)
    (((List.range w.length).filter fun i =>
      !decide ((w.map (· / (w.sum / (w.length : ℚ)))).getD i 0 < 1)).reverse)
    (List.replicate w.length 0)
    (w.map (· / (w.sum / (w.length : ℚ))))
    rfl hinv
  refine ⟨_, _, ?_, h1, h2, h3, h4⟩
  simp only [generate_alias_tables, if_neg hn0, if_neg havg.ne']

/-- Witness for C1 on the concrete weights `[1, 2]`. -/
theorem claim_C1_witness :
    (([1, 2] : List ℚ) ≠ [] ∧ (∀ x ∈ ([1, 2] : List ℚ), 0 ≤ x) ∧
      0 < ([1, 2] : List ℚ).sum) ∧
    (∃ al probs, generate_alias_tables [1, 2] = .ok (al, probs) ∧
      al.length = ([1, 2] : List ℚ).length ∧
      probs.length = ([1, 2] : List ℚ).length ∧
      (∀ j ∈ al, j < ([1, 2] : List ℚ).length) ∧
      ∀ x ∈ probs, 0 ≤ x ∧ x ≤ 1) :=
  ⟨⟨by decide, by decide, by norm_num [List.sum_cons, List.sum_nil]⟩,
    claim_C1_table_shape [1, 2] (by decide) (by decide)
      (by norm_num [List.sum_cons, List.sum_nil])⟩

end Node2Vec
